import Mathlib

/-!
Verification of the pybinclock repository.

The embedding covers the time-to-binary encoder
(`pybinclock/PyBinClock.py`, class `CurrentTime`) and the LED grid
display state of the three display variants
(`pybinclock/BinClockLEDs.py`, `pybinclock/BinClockLEDs_nobuttons.py`,
`pybinclock/BinClockLEDs_improved.py`).  Pure functions of the source
become Lean functions; in-place mutation of the grid and of the stored
bit-vector lists becomes explicit state passing.
-/

/- ### Encoder: `CurrentTime.get_*_bin` in `pybinclock/PyBinClock.py` -/

/-- Little-endian binary digits of `n`, fuelled; `bitsAux n n` always has
enough fuel.  Read in reverse these are the characters of Python's
`"\x7b0:b\x7d".format(n)` for `n > 0`. -/
def bitsAux : Nat → Nat → List Nat
  | 0, _ => []
  | _ + 1, 0 => []
  | fuel + 1, n + 1 => (n + 1) % 2 :: bitsAux fuel ((n + 1) / 2)

/-- MSB-first binary digits of `n`, no leading zeros, `[0]` for `0`:
the digit characters of Python's `"\x7b0:b\x7d".format(n)`. -/
def natBits (n : Nat) : List Nat :=
  if n = 0 then [0] else (bitsAux n n).reverse

/-- Python's `"\x7b0:0Nb\x7d".format(n)` as used by every
`CurrentTime.get_*_bin`: the binary digits of `n`, left-padded with `0`
to a minimum width `w` (the result is longer than `w` when `n ≥ 2 ^ w`). -/
def toBin (w n : Nat) : List Nat :=
  List.replicate (w - (natBits n).length) 0 ++ natBits n

/-- `CurrentTime.get_hour_bin`: 5-bit minimum width. -/
def get_hour_bin (h : Nat) : List Nat := toBin 5 h

/-- `CurrentTime.get_minute_bin`: 6-bit minimum width. -/
def get_minute_bin (m : Nat) : List Nat := toBin 6 m

/-- `CurrentTime.get_second_bin`: 6-bit minimum width. -/
def get_second_bin (s : Nat) : List Nat := toBin 6 s

/-- `CurrentTime.get_month_bin`: 4-bit minimum width. -/
def get_month_bin (m : Nat) : List Nat := toBin 4 m

/-- `CurrentTime.get_day_bin`: 5-bit minimum width. -/
def get_day_bin (d : Nat) : List Nat := toBin 5 d

/-- `CurrentTime.get_year_bin`: 11-bit minimum width. -/
def get_year_bin (y : Nat) : List Nat := toBin 11 y

/-- The `CurrentTime.binary` dictionary recomputed by
`CurrentTime.update`, keyed by field name. -/
structure BinaryTime where
  hour : List Nat
  minute : List Nat
  second : List Nat
  month : List Nat
  day : List Nat
  year : List Nat
deriving DecidableEq

/-- `CurrentTime.update`: recompute all six binary representations from
the captured timestamp's integer fields. -/
def CurrentTime.update (y mo d h mi s : Nat) : BinaryTime :=
  { hour := get_hour_bin h
    minute := get_minute_bin mi
    second := get_second_bin s
    month := get_month_bin mo
    day := get_day_bin d
    year := get_year_bin y }

/-- Integer value of an MSB-first bit vector: the spec's reconstruction
(read most-significant bit first). -/
def fromBits (l : List Nat) : Nat :=
  l.foldl (fun a b => 2 * a + b) 0

/-- Integer value of a little-endian bit list (proof helper). -/
def ofBitsLE : List Nat → Nat
  | [] => 0
  | b :: t => b + 2 * ofBitsLE t

theorem bitsAux_mem_01 : ∀ fuel n, ∀ b ∈ bitsAux fuel n, b = 0 ∨ b = 1 := by
  intro fuel
  induction fuel with
  | zero => intro n b hb; simp [bitsAux] at hb
  | succ f ih =>
    intro n b hb
    match n with
    | 0 => simp [bitsAux] at hb
    | m + 1 =>
      simp only [bitsAux, List.mem_cons] at hb
      rcases hb with rfl | hb
      · have : (m + 1) % 2 < 2 := Nat.mod_lt _ (by omega)
        omega
      · exact ih _ b hb

theorem ofBitsLE_bitsAux : ∀ fuel n, n ≤ fuel → ofBitsLE (bitsAux fuel n) = n := by
  intro fuel
  induction fuel with
  | zero => intro n hn; interval_cases n; rfl
  | succ f ih =>
    intro n hn
    match n with
    | 0 => rfl
    | m + 1 =>
      have hdiv : (m + 1) / 2 ≤ m := by omega
      have := ih ((m + 1) / 2) (by omega)
      simp only [bitsAux, ofBitsLE, this]
      omega

theorem bitsAux_length_le : ∀ fuel n w, n ≤ fuel → n < 2 ^ w →
    (bitsAux fuel n).length ≤ w := by
  intro fuel
  induction fuel with
  | zero => intro n w hn _; interval_cases n; simp [bitsAux]
  | succ f ih =>
    intro n w hn hw
    match n with
    | 0 => simp [bitsAux]
    | m + 1 =>
      match w with
      | 0 => simp at hw
      | w' + 1 =>
        have hdiv : (m + 1) / 2 ≤ f := by omega
        have hlt : (m + 1) / 2 < 2 ^ w' := by
          have h2 : (2 : Nat) ^ (w' + 1) = 2 ^ w' * 2 := by ring
          rw [Nat.div_lt_iff_lt_mul (by omega)]
          omega
        have := ih ((m + 1) / 2) w' hdiv hlt
        simp only [bitsAux, List.length_cons]
        omega

theorem lt_pow_of_bitsAux_length_le : ∀ fuel n w, n ≤ fuel →
    (bitsAux fuel n).length ≤ w → n < 2 ^ w := by
  intro fuel
  induction fuel with
  | zero => intro n w hn _; have : n = 0 := by omega
            subst this; exact Nat.pos_pow_of_pos w (by omega)
  | succ f ih =>
    intro n w hn hlen
    match n with
    | 0 => exact Nat.pos_pow_of_pos w (by omega)
    | m + 1 =>
      simp only [bitsAux, List.length_cons] at hlen
      match w with
      | 0 => omega
      | w' + 1 =>
        have hdiv : (m + 1) / 2 ≤ f := by omega
        have := ih ((m + 1) / 2) w' hdiv (by omega)
        have h2 : (2 : Nat) ^ (w' + 1) = 2 ^ w' * 2 := by ring
        have hmod : (m + 1) % 2 < 2 := Nat.mod_lt _ (by omega)
        have hsum := Nat.mod_add_div (m + 1) 2
        omega

theorem natBits_mem_01 (n : Nat) : ∀ b ∈ natBits n, b = 0 ∨ b = 1 := by
  intro b hb
  unfold natBits at hb
  split at hb
  · simp at hb; omega
  · rw [List.mem_reverse] at hb
    exact bitsAux_mem_01 n n b hb

theorem natBits_length_le (n w : Nat) (h1 : 1 ≤ w) (h : n < 2 ^ w) :
    (natBits n).length ≤ w := by
  unfold natBits
  split
  · simpa using h1
  · rw [List.length_reverse]
    exact bitsAux_length_le n n w le_rfl h

theorem natBits_length_gt (n w : Nat) (h : 2 ^ w ≤ n) :
    w < (natBits n).length := by
  by_contra hle
  push_neg at hle
  unfold natBits at hle
  have hn : n ≠ 0 := by
    intro h0; subst h0
    have := Nat.pos_pow_of_pos w (show 0 < 2 by omega)
    omega
  rw [if_neg hn, List.length_reverse] at hle
  exact absurd (lt_pow_of_bitsAux_length_le n n w le_rfl hle) (by omega)

theorem fromBits_reverse (l : List Nat) :
    ∀ a, (l.reverse).foldl (fun x b => 2 * x + b) a = ofBitsLE l + a * 2 ^ l.length := by
  induction l with
  | nil => intro a; simp [ofBitsLE]
  | cons b t ih =>
    intro a
    simp only [List.reverse_cons, List.foldl_append, List.foldl_cons, List.foldl_nil,
      ih, ofBitsLE, List.length_cons]
    ring

theorem fromBits_natBits (n : Nat) : fromBits (natBits n) = n := by
  unfold natBits
  split
  · subst ‹n = 0›; rfl
  · unfold fromBits
    rw [fromBits_reverse (bitsAux n n) 0, ofBitsLE_bitsAux n n le_rfl]
    ring

theorem fromBits_replicate_zero_append (k : Nat) (l : List Nat) :
    fromBits (List.replicate k 0 ++ l) = fromBits l := by
  unfold fromBits
  rw [List.foldl_append]
  congr 1
  induction k with
  | zero => rfl
  | succ j ih => simpa [List.replicate_succ] using ih

theorem toBin_spec (w n : Nat) (h1 : 1 ≤ w) (h : n < 2 ^ w) :
    (toBin w n).length = w ∧ (∀ b ∈ toBin w n, b = 0 ∨ b = 1) ∧
    fromBits (toBin w n) = n := by
  have hle := natBits_length_le n w h1 h
  refine ⟨?_, ?_, ?_⟩
  · simp only [toBin, List.length_append, List.length_replicate]
    omega
  · intro b hb
    simp only [toBin, List.mem_append, List.mem_replicate] at hb
    rcases hb with ⟨_, rfl⟩ | hb
    · exact Or.inl rfl
    · exact natBits_mem_01 n b hb
  · rw [toBin, fromBits_replicate_zero_append, fromBits_natBits]

/-- C6: the encoder maps each boundary input of the spec's table to the
exact MSB-first vector listed there. -/
theorem boundary_encodings :
    get_hour_bin 0 = [0, 0, 0, 0, 0] ∧
    get_hour_bin 23 = [1, 0, 1, 1, 1] ∧
    get_minute_bin 59 = [1, 1, 1, 0, 1, 1] ∧
    get_month_bin 1 = [0, 0, 0, 1] ∧
    get_month_bin 12 = [1, 1, 0, 0] ∧
    get_day_bin 31 = [1, 1, 1, 1, 1] ∧
    get_year_bin 2000 = [1, 1, 1, 1, 1, 0, 1, 0, 0, 0, 0] ∧
    get_year_bin 2047 = List.replicate 11 1 := by
  decide

/-- C1: for in-range fields, `CurrentTime.update` produces six vectors of
the fixed widths (year 11, month 4, day 5, hour 5, minute 6, second 6),
every element is 0 or 1, and the MSB-first reconstruction of each vector
equals the original field value. -/
theorem encode_widths_bits_roundtrip (y mo d h mi s : Nat)
    (hy : y ≤ 2047) (hmo1 : 1 ≤ mo) (hmo : mo ≤ 12)
    (hd1 : 1 ≤ d) (hd : d ≤ 31) (hh : h ≤ 23) (hmi : mi ≤ 59) (hs : s ≤ 59) :
    ((CurrentTime.update y mo d h mi s).year.length = 11 ∧
      (∀ b ∈ (CurrentTime.update y mo d h mi s).year, b = 0 ∨ b = 1) ∧
      fromBits (CurrentTime.update y mo d h mi s).year = y) ∧
    ((CurrentTime.update y mo d h mi s).month.length = 4 ∧
      (∀ b ∈ (CurrentTime.update y mo d h mi s).month, b = 0 ∨ b = 1) ∧
      fromBits (CurrentTime.update y mo d h mi s).month = mo) ∧
    ((CurrentTime.update y mo d h mi s).day.length = 5 ∧
      (∀ b ∈ (CurrentTime.update y mo d h mi s).day, b = 0 ∨ b = 1) ∧
      fromBits (CurrentTime.update y mo d h mi s).day = d) ∧
    ((CurrentTime.update y mo d h mi s).hour.length = 5 ∧
      (∀ b ∈ (CurrentTime.update y mo d h mi s).hour, b = 0 ∨ b = 1) ∧
      fromBits (CurrentTime.update y mo d h mi s).hour = h) ∧
    ((CurrentTime.update y mo d h mi s).minute.length = 6 ∧
      (∀ b ∈ (CurrentTime.update y mo d h mi s).minute, b = 0 ∨ b = 1) ∧
      fromBits (CurrentTime.update y mo d h mi s).minute = mi) ∧
    ((CurrentTime.update y mo d h mi s).second.length = 6 ∧
      (∀ b ∈ (CurrentTime.update y mo d h mi s).second, b = 0 ∨ b = 1) ∧
      fromBits (CurrentTime.update y mo d h mi s).second = s) := by
  exact ⟨toBin_spec 11 y (by omega) (by omega),
    toBin_spec 4 mo (by omega) (by omega),
    toBin_spec 5 d (by omega) (by omega),
    toBin_spec 5 h (by omega) (by omega),
    toBin_spec 6 mi (by omega) (by omega),
    toBin_spec 6 s (by omega) (by omega)⟩

theorem encode_widths_bits_roundtrip_witness :
    (2024 ≤ 2047 ∧ 1 ≤ 12 ∧ (12 : Nat) ≤ 12 ∧ 1 ≤ 25 ∧ (25 : Nat) ≤ 31 ∧
      (13 : Nat) ≤ 23 ∧ (45 : Nat) ≤ 59 ∧ (30 : Nat) ≤ 59) ∧
    (CurrentTime.update 2024 12 25 13 45 30).year.length = 11 ∧
    fromBits (CurrentTime.update 2024 12 25 13 45 30).year = 2024 ∧
    fromBits (CurrentTime.update 2024 12 25 13 45 30).hour = 13 := by
  have h := encode_widths_bits_roundtrip 2024 12 25 13 45 30
    (by decide) (by decide) (by decide) (by decide) (by decide)
    (by decide) (by decide) (by decide)
  exact ⟨by decide, h.1.1, h.1.2.2, h.2.2.2.1.2.2⟩

/-- C2 counterexample: `get_year_bin 2048` raises nothing and returns a
12-element bit vector; there is no `RangeError` anywhere in the code. -/
theorem year2048_returns_twelve_bit_vector :
    get_year_bin 2048 = [1, 0, 0, 0, 0, 0, 0, 0, 0, 0, 0, 0] ∧
    (get_year_bin 2048).length ≠ 11 := by
  decide

/-- C2 amended: for every year above 2047 the encoder does not fail; it
returns the full MSB-first binary representation of the year, which is
longer than 11 bits, with all bits 0/1 and the value reconstructing to
the year. -/
theorem year_overflow_returns_wider_vector (y : Nat) (h : 2047 < y) :
    11 < (get_year_bin y).length ∧
    (∀ b ∈ get_year_bin y, b = 0 ∨ b = 1) ∧
    fromBits (get_year_bin y) = y := by
  have hgt : 11 < (natBits y).length := natBits_length_gt y 11 (by omega)
  refine ⟨?_, ?_, ?_⟩
  · simp only [get_year_bin, toBin, List.length_append, List.length_replicate]
    omega
  · intro b hb
    simp only [get_year_bin, toBin, List.mem_append, List.mem_replicate] at hb
    rcases hb with ⟨_, rfl⟩ | hb
    · exact Or.inl rfl
    · exact natBits_mem_01 y b hb
  · rw [get_year_bin, toBin, fromBits_replicate_zero_append, fromBits_natBits]

theorem year_overflow_returns_wider_vector_witness :
    2047 < 2048 ∧ 11 < (get_year_bin 2048).length ∧
    fromBits (get_year_bin 2048) = 2048 := by
  have h := year_overflow_returns_wider_vector 2048 (by decide)
  exact ⟨by decide, h.1, h.2.2⟩

/- ### Grid model: `self.field` in the LED controllers -/

/-- An RGB triple as stored in the Python grid (a 3-element list). -/
abbrev Color := List Nat

/-- The display field `self.field`: a list of rows, each a list of RGB
triples; `reset` makes it 7 rows of 17 cells. -/
abbrev Grid := List (List Color)

/-- A single assignment `self.field[r][c] = v`; out-of-range indices are
dropped like `List.set` (all claims stay in range). -/
def setCell (g : Grid) (r c : Nat) (v : Color) : Grid :=
  g.set r ((g.getD r []).set c v)

/-- Read `self.field[r][c]` (default `[]` out of range). -/
def getCell (g : Grid) (r c : Nat) : Color :=
  (g.getD r []).getD c []

/-- Apply a list of single-cell assignments `(row, col, color)` in
order: the elementary form of every grid-mutating loop in the source. -/
def applyWrites (g : Grid) : List (Nat × Nat × Color) → Grid
  | [] => g
  | (r, c, v) :: ws => applyWrites (setCell g r c v) ws

/-- The last value a write list assigns to cell `(r, c)`, if any. -/
def lastVal : List (Nat × Nat × Color) → Nat → Nat → Option Color
  | [], _, _ => none
  | (r, c, v) :: ws, r', c' =>
    match lastVal ws r' c' with
    | some w => some w
    | none => if r = r' ∧ c = c' then some v else none

theorem row_setCell (g : Grid) (r0 c0 r : Nat) (v : Color) :
    (setCell g r0 c0 v).getD r [] =
      if r0 = r ∧ r0 < g.length
      then (g.getD r0 []).set c0 v else g.getD r [] := by
  unfold setCell
  rw [List.getD_eq_getElem?_getD, List.getElem?_set]
  by_cases hr : r0 = r
  · subst hr
    by_cases hlen : r0 < g.length
    · simp [hlen]
    · have hdef : g.getD r0 [] = [] := List.getD_eq_default _ _ (by omega)
      have hnone : g[r0]? = none := List.getElem?_eq_none (by omega)
      simp [hlen, hdef, hnone]
  · simp [hr, List.getD_eq_getElem?_getD]

theorem length_setCell (g : Grid) (r0 c0 : Nat) (v : Color) :
    (setCell g r0 c0 v).length = g.length := by
  unfold setCell; exact List.length_set ..

theorem rowLength_setCell (g : Grid) (r0 c0 r : Nat) (v : Color) :
    ((setCell g r0 c0 v).getD r []).length = (g.getD r []).length := by
  rw [row_setCell]
  by_cases h : r0 = r ∧ r0 < g.length
  · rw [if_pos h, List.length_set, h.1]
  · rw [if_neg h]

theorem getCell_setCell (g : Grid) (r0 c0 r c : Nat) (v : Color) :
    getCell (setCell g r0 c0 v) r c =
      if r0 = r ∧ c0 = c ∧ r0 < g.length ∧ c0 < (g.getD r0 []).length
      then v else getCell g r c := by
  unfold getCell
  rw [row_setCell]
  by_cases hr : r0 = r
  · subst hr
    by_cases hlen : r0 < g.length
    · rw [if_pos ⟨rfl, hlen⟩, List.getD_eq_getElem?_getD, List.getElem?_set]
      by_cases hc : c0 = c
      · subst hc
        by_cases hclen : c0 < (g.getD r0 []).length
        · rw [if_pos rfl, if_pos hclen, if_pos ⟨rfl, rfl, hlen, hclen⟩]
          rfl
        · rw [if_pos rfl, if_neg hclen,
            if_neg (show ¬(r0 = r0 ∧ c0 = c0 ∧ r0 < g.length ∧
              c0 < (g.getD r0 []).length) from fun h => hclen h.2.2.2),
            List.getD_eq_default _ _ (by omega)]
          rfl
      · rw [if_neg hc,
          if_neg (show ¬(r0 = r0 ∧ c0 = c ∧ r0 < g.length ∧
            c0 < (g.getD r0 []).length) from fun h => hc h.2.1),
          ← List.getD_eq_getElem?_getD]
    · rw [if_neg (show ¬(r0 = r0 ∧ r0 < g.length) from fun h => hlen h.2),
        if_neg (show ¬(r0 = r0 ∧ c0 = c ∧ r0 < g.length ∧
          c0 < (g.getD r0 []).length) from fun h => hlen h.2.2.1)]
  · rw [if_neg (show ¬(r0 = r ∧ r0 < g.length) from fun h => hr h.1),
      if_neg (show ¬(r0 = r ∧ c0 = c ∧ r0 < g.length ∧
        c0 < (g.getD r0 []).length) from fun h => hr h.1)]

theorem length_applyWrites (ws : List (Nat × Nat × Color)) :
    ∀ g : Grid, (applyWrites g ws).length = g.length := by
  induction ws with
  | nil => intro g; rfl
  | cons w ws ih =>
    intro g
    obtain ⟨r, c, v⟩ := w
    rw [applyWrites, ih, length_setCell]

theorem rowLength_applyWrites (ws : List (Nat × Nat × Color)) :
    ∀ (g : Grid) (r : Nat),
      ((applyWrites g ws).getD r []).length = (g.getD r []).length := by
  induction ws with
  | nil => intro g r; rfl
  | cons w ws ih =>
    intro g r
    obtain ⟨r0, c0, v⟩ := w
    rw [applyWrites, ih, rowLength_setCell]

theorem getCell_applyWrites (ws : List (Nat × Nat × Color)) :
    ∀ (g : Grid) (r c : Nat),
      getCell (applyWrites g ws) r c =
        if r < g.length ∧ c < (g.getD r []).length
        then (lastVal ws r c).getD (getCell g r c)
        else getCell g r c := by
  induction ws with
  | nil =>
    intro g r c
    by_cases h : r < g.length ∧ c < (g.getD r []).length <;>
      simp [applyWrites, lastVal, h]
  | cons w ws ih =>
    intro g r c
    obtain ⟨r0, c0, v⟩ := w
    rw [applyWrites, ih, length_setCell, rowLength_setCell, getCell_setCell]
    by_cases hB : r < g.length ∧ c < (g.getD r []).length
    · rw [if_pos hB, if_pos hB]
      cases hlv : lastVal ws r c with
      | some w =>
        simp [lastVal, hlv]
      | none =>
        simp only [lastVal, hlv, Option.getD_none]
        by_cases hm : r0 = r ∧ c0 = c
        · obtain ⟨rfl, rfl⟩ := hm
          rw [if_pos ⟨rfl, rfl, hB.1, hB.2⟩]
          simp
        · rw [if_neg (show ¬(r0 = r ∧ c0 = c ∧ r0 < g.length ∧
            c0 < (g.getD r0 []).length) from fun h => hm ⟨h.1, h.2.1⟩)]
          simp [hm]
    · have hP : ¬(r0 = r ∧ c0 = c ∧ r0 < g.length ∧ c0 < (g.getD r0 []).length) := by
        rintro ⟨rfl, rfl, h1, h2⟩
        exact hB ⟨h1, h2⟩
      rw [if_neg hB, if_neg hB, if_neg hP]

theorem grid_ext (g1 g2 : Grid) (hlen : g1.length = g2.length)
    (hrow : ∀ r, (g1.getD r []).length = (g2.getD r []).length)
    (hcell : ∀ r c, getCell g1 r c = getCell g2 r c) : g1 = g2 := by
  apply List.ext_getElem?
  intro r
  by_cases hr : r < g1.length
  · have hr2 : r < g2.length := by omega
    rw [List.getElem?_eq_getElem hr, List.getElem?_eq_getElem hr2]
    have e1 : g1.getD r [] = g1[r] := List.getD_eq_getElem g1 [] hr
    have e2 : g2.getD r [] = g2[r] := List.getD_eq_getElem g2 [] hr2
    congr 1
    apply List.ext_getElem?
    intro c
    by_cases hc : c < g1[r].length
    · have hc2 : c < g2[r].length := by
        have := hrow r; rw [e1, e2] at this; omega
      rw [List.getElem?_eq_getElem hc, List.getElem?_eq_getElem hc2]
      have v1 : getCell g1 r c = g1[r][c] := by
        unfold getCell; rw [e1]; exact List.getD_eq_getElem _ [] hc
      have v2 : getCell g2 r c = g2[r][c] := by
        unfold getCell; rw [e2]; exact List.getD_eq_getElem _ [] hc2
      rw [← v1, ← v2, hcell]
    · have hc2 : ¬ c < g2[r].length := by
        have := hrow r; rw [e1, e2] at this; omega
      rw [List.getElem?_eq_none (by omega), List.getElem?_eq_none (by omega)]
  · have hr2 : ¬ r < g2.length := by omega
    rw [List.getElem?_eq_none (by omega), List.getElem?_eq_none (by omega)]

theorem applyWrites_idem (g : Grid) (ws : List (Nat × Nat × Color)) :
    applyWrites (applyWrites g ws) ws = applyWrites g ws := by
  apply grid_ext
  · rw [length_applyWrites, length_applyWrites]
  · intro r
    rw [rowLength_applyWrites, rowLength_applyWrites]
  · intro r c
    rw [getCell_applyWrites ws (applyWrites g ws) r c, length_applyWrites,
      rowLength_applyWrites, getCell_applyWrites ws g r c]
    by_cases hB : r < g.length ∧ c < (g.getD r []).length
    · rw [if_pos hB, if_pos hB]
      cases hlv : lastVal ws r c <;> simp [hlv]
    · rw [if_neg hB, if_neg hB]

/- ### Time-row placement: the per-row LED loop in the display variants -/

/-- The write sequence of one row's placement loop in `BinClockLEDs`
(after `i.reverse()`: `for led in range(len(i)): field[row][16 - led] =
[255,0,0] if i[led] == 1 else [0,0,0]`, with configurable colors in the
other variants).  Position `led` reads element `led` of the reversed
vector. -/
def rowWrites (row : Nat) (bits : List Nat) (onC offC : Color) :
    List (Nat × Nat × Color) :=
  (List.range bits.length).map
    (fun led => (row, 16 - led, if bits.reverse.getD led 0 = 1 then onC else offC))

/-- One row's grid update (valid for vectors of at most 17 bits, the
only case the claims exercise; Python's negative-index wraparound for
longer vectors is not modelled). -/
def updateRow (g : Grid) (row : Nat) (bits : List Nat) (onC offC : Color) : Grid :=
  applyWrites g (rowWrites row bits onC offC)

theorem lastVal_append_single (ws : List (Nat × Nat × Color)) (r0 c0 : Nat)
    (v : Color) (r c : Nat) :
    lastVal (ws ++ [(r0, c0, v)]) r c =
      if r0 = r ∧ c0 = c then some v else lastVal ws r c := by
  induction ws with
  | nil => rfl
  | cons w ws ih =>
    obtain ⟨r1, c1, v1⟩ := w
    show (match lastVal (ws ++ [(r0, c0, v)]) r c with
      | some w => some w
      | none => if r1 = r ∧ c1 = c then some v1 else none) =
      if r0 = r ∧ c0 = c then some v else lastVal ((r1, c1, v1) :: ws) r c
    rw [ih]
    by_cases h : r0 = r ∧ c0 = c
    · rw [if_pos h, if_pos h]
    · rw [if_neg h, if_neg h]
      rfl

theorem lastVal_range_map_ne_row (row : Nat) (f : Nat → Color) (r c : Nat)
    (hr : r ≠ row) :
    ∀ n, lastVal ((List.range n).map (fun l => (row, 16 - l, f l))) r c = none := by
  intro n
  induction n with
  | zero => rfl
  | succ m ih =>
    rw [List.range_succ, List.map_append, List.map_cons, List.map_nil,
      lastVal_append_single, if_neg (fun h => hr h.1.symm), ih]

theorem lastVal_range_map_ne_col (row : Nat) (f : Nat → Color) (r c : Nat) :
    ∀ n, (∀ led, led < n → c ≠ 16 - led) →
      lastVal ((List.range n).map (fun l => (row, 16 - l, f l))) r c = none := by
  intro n
  induction n with
  | zero => intro _; rfl
  | succ m ih =>
    intro hc
    rw [List.range_succ, List.map_append, List.map_cons, List.map_nil,
      lastVal_append_single, if_neg (fun h => hc m (by omega) h.2.symm),
      ih (fun led hled => hc led (by omega))]

theorem lastVal_range_map_hit (row : Nat) (f : Nat → Color) (led : Nat) :
    ∀ n, led < n → n ≤ 17 →
      lastVal ((List.range n).map (fun l => (row, 16 - l, f l))) row (16 - led) =
        some (f led) := by
  intro n
  induction n with
  | zero => intro h _; omega
  | succ m ih =>
    intro hled hn
    rw [List.range_succ, List.map_append, List.map_cons, List.map_nil,
      lastVal_append_single]
    by_cases hm : led = m
    · subst hm
      rw [if_pos ⟨rfl, rfl⟩]
    · have hne : (16 : Nat) - m ≠ 16 - led := by omega
      rw [if_neg (fun h => hne h.2), ih (by omega) (by omega)]

theorem length_updateRow (g : Grid) (row : Nat) (bits : List Nat)
    (onC offC : Color) : (updateRow g row bits onC offC).length = g.length :=
  length_applyWrites _ g

theorem rowLength_updateRow (g : Grid) (row : Nat) (bits : List Nat)
    (onC offC : Color) (r : Nat) :
    ((updateRow g row bits onC offC).getD r []).length = (g.getD r []).length :=
  rowLength_applyWrites _ g r

theorem getCell_updateRow_hit (g : Grid) (row : Nat) (bits : List Nat)
    (onC offC : Color) (led : Nat) (hled : led < bits.length)
    (hlen : bits.length ≤ 17) (hrow : row < g.length)
    (hcol : 16 - led < (g.getD row []).length) :
    getCell (updateRow g row bits onC offC) row (16 - led) =
      if bits.reverse.getD led 0 = 1 then onC else offC := by
  unfold updateRow rowWrites
  rw [getCell_applyWrites, if_pos ⟨hrow, hcol⟩,
    lastVal_range_map_hit row _ led bits.length hled hlen]
  rfl

theorem getCell_updateRow_frame (g : Grid) (row : Nat) (bits : List Nat)
    (onC offC : Color) (r c : Nat)
    (h : r ≠ row ∨ ∀ led, led < bits.length → c ≠ 16 - led) :
    getCell (updateRow g row bits onC offC) r c = getCell g r c := by
  unfold updateRow rowWrites
  rw [getCell_applyWrites]
  by_cases hB : r < g.length ∧ c < (g.getD r []).length
  · rw [if_pos hB]
    rcases h with hr | hc
    · rw [lastVal_range_map_ne_row row _ r c hr bits.length]
      rfl
    · rw [lastVal_range_map_ne_col row _ r c bits.length hc]
      rfl
  · rw [if_neg hB]

/-- C3: after the in-place reversal, the placement loop writes bit index
`led` of the reversed vector to grid cell `[row][16 - led]` (`onColor`
for a 1 bit, `offColor` otherwise); in particular placing hour = 23
(MSB-first `[1,0,1,1,1]`) on its row makes both column 16 (the reversed
index 0) and column 12 (the original MSB) `onColor`. -/
theorem placement_row_reversed (g : Grid) (row : Nat) (bits : List Nat)
    (onC offC : Color) (led : Nat)
    (hg7 : g.length = 7) (hg17 : ∀ r, r < 7 → (g.getD r []).length = 17)
    (hrow : row < 7) (hlen : bits.length ≤ 17) (hled : led < bits.length) :
    getCell (updateRow g row bits onC offC) row (16 - led) =
      (if bits.reverse.getD led 0 = 1 then onC else offC) ∧
    getCell (updateRow g 3 [1, 0, 1, 1, 1] onC offC) 3 16 = onC ∧
    getCell (updateRow g 3 [1, 0, 1, 1, 1] onC offC) 3 12 = onC := by
  have hcol : ∀ l : Nat, 16 - l < (g.getD row []).length := by
    intro l
    rw [hg17 row hrow]
    omega
  have hcol3 : ∀ l : Nat, 16 - l < (g.getD 3 []).length := by
    intro l
    rw [hg17 3 (by omega)]
    omega
  refine ⟨?_, ?_, ?_⟩
  · exact getCell_updateRow_hit g row bits onC offC led hled hlen
      (by omega) (hcol led)
  · have h := getCell_updateRow_hit g 3 [1, 0, 1, 1, 1] onC offC 0
      (by decide) (by decide) (by omega) (hcol3 0)
    simpa using h
  · have h := getCell_updateRow_hit g 3 [1, 0, 1, 1, 1] onC offC 4
      (by decide) (by decide) (by omega) (hcol3 4)
    simpa using h

/-- The initial display field built by `reset`: 7 rows of 17 black
cells. -/
def initField : Grid :=
  List.replicate 7 (List.replicate 17 ([0, 0, 0] : Color))

theorem placement_row_reversed_witness :
    (initField.length = 7 ∧ (∀ r, r < 7 → (initField.getD r []).length = 17) ∧
      3 < 7 ∧ ([1, 0, 1, 1, 1] : List Nat).length ≤ 17 ∧
      0 < ([1, 0, 1, 1, 1] : List Nat).length) ∧
    getCell (updateRow initField 3 [1, 0, 1, 1, 1] [255, 0, 0] [0, 0, 0]) 3 16 =
      [255, 0, 0] := by
  have h := placement_row_reversed initField 3 [1, 0, 1, 1, 1]
    [255, 0, 0] [0, 0, 0] 0 (by decide) (by decide) (by decide) (by decide)
    (by decide)
  exact ⟨⟨by decide, by decide, by decide, by decide, by decide⟩, h.2.1⟩

/- ### The per-refresh placement over all six rows -/

/-- The main-loop body of `BinClockLEDs`: iterate the six stored vectors
in row order (year, month, day, hour, minute, second = rows 0..5),
reverse each in place (`i.reverse()`), place it on its row.  The second
component is the mutated state of `ct.binary` after the pass: each
stored vector is now reversed. -/
def passRows (g : Grid) (row : Nat) (onC offC : Color) :
    List (List Nat) → Grid × List (List Nat)
  | [] => (g, [])
  | b :: rest =>
    let p := passRows (updateRow g row b onC offC) (row + 1) onC offC rest
    (p.1, b.reverse :: p.2)

theorem passRows_snd (onC offC : Color) :
    ∀ (bins : List (List Nat)) (g : Grid) (row : Nat),
      (passRows g row onC offC bins).2 = bins.map List.reverse := by
  intro bins
  induction bins with
  | nil => intro g row; rfl
  | cons b rest ih =>
    intro g row
    show (b.reverse :: (passRows _ (row + 1) onC offC rest).2) = _
    rw [ih, List.map_cons]

theorem length_passRows (onC offC : Color) :
    ∀ (bins : List (List Nat)) (g : Grid) (row : Nat),
      (passRows g row onC offC bins).1.length = g.length := by
  intro bins
  induction bins with
  | nil => intro g row; rfl
  | cons b rest ih =>
    intro g row
    show (passRows (updateRow g row b onC offC) (row + 1) onC offC rest).1.length = _
    rw [ih, length_updateRow]

theorem rowLength_passRows (onC offC : Color) :
    ∀ (bins : List (List Nat)) (g : Grid) (row r : Nat),
      ((passRows g row onC offC bins).1.getD r []).length = (g.getD r []).length := by
  intro bins
  induction bins with
  | nil => intro g row r; rfl
  | cons b rest ih =>
    intro g row r
    show ((passRows (updateRow g row b onC offC) (row + 1) onC offC rest).1.getD r []).length = _
    rw [ih, rowLength_updateRow]

theorem getCell_passRows_frame_row (onC offC : Color) :
    ∀ (bins : List (List Nat)) (g : Grid) (row r c : Nat),
      (r < row ∨ row + bins.length ≤ r) →
      getCell (passRows g row onC offC bins).1 r c = getCell g r c := by
  intro bins
  induction bins with
  | nil => intro g row r c _; rfl
  | cons b rest ih =>
    intro g row r c h
    simp only [List.length_cons] at h
    show getCell (passRows (updateRow g row b onC offC) (row + 1) onC offC rest).1 r c = _
    rw [ih _ (row + 1) r c (by omega)]
    exact getCell_updateRow_frame g row b onC offC r c (Or.inl (by omega))

theorem getCell_passRows_frame_col (onC offC : Color) :
    ∀ (bins : List (List Nat)) (g : Grid) (row i c : Nat),
      i < bins.length →
      (∀ led, led < (bins.getD i []).length → c ≠ 16 - led) →
      getCell (passRows g row onC offC bins).1 (row + i) c = getCell g (row + i) c := by
  intro bins
  induction bins with
  | nil => intro g row i c hi _; simp at hi
  | cons b rest ih =>
    intro g row i c hi hc
    show getCell (passRows (updateRow g row b onC offC) (row + 1) onC offC rest).1
      (row + i) c = _
    match i with
    | 0 =>
      rw [getCell_passRows_frame_row onC offC rest _ (row + 1) (row + 0) c
        (by omega)]
      exact getCell_updateRow_frame g row b onC offC (row + 0) c
        (Or.inr (by simpa using hc))
    | i' + 1 =>
      have h1 : row + (i' + 1) = (row + 1) + i' := by omega
      rw [h1, ih _ (row + 1) i' c (by simpa using hi) (by simpa using hc)]
      exact getCell_updateRow_frame g row b onC offC ((row + 1) + i') c
        (Or.inl (by omega))

theorem getCell_passRows_hit (onC offC : Color) :
    ∀ (bins : List (List Nat)) (g : Grid) (row i led : Nat),
      g.length = 7 → (∀ r, r < 7 → (g.getD r []).length = 17) →
      (∀ b ∈ bins, b.length ≤ 17) →
      i < bins.length → row + bins.length ≤ 7 →
      led < (bins.getD i []).length →
      getCell (passRows g row onC offC bins).1 (row + i) (16 - led) =
        if (bins.getD i []).reverse.getD led 0 = 1 then onC else offC := by
  intro bins
  induction bins with
  | nil => intro g row i led _ _ _ hi _ _; simp at hi
  | cons b rest ih =>
    intro g row i led hg7 hg17 hble hi hrow hled
    show getCell (passRows (updateRow g row b onC offC) (row + 1) onC offC rest).1
      (row + i) (16 - led) = _
    match i with
    | 0 =>
      rw [getCell_passRows_frame_row onC offC rest _ (row + 1) (row + 0) _
        (by omega)]
      simp only [List.getD_cons_zero] at hled ⊢
      have : row + 0 = row := by omega
      rw [this]
      exact getCell_updateRow_hit g row b onC offC led hled
        (hble b (by simp)) (by omega)
        (by rw [hg17 row (by simp only [List.length_cons] at hrow; omega)]; omega)
    | i' + 1 =>
      have h1 : row + (i' + 1) = (row + 1) + i' := by omega
      simp only [List.getD_cons_succ] at hled ⊢
      rw [h1]
      exact ih (updateRow g row b onC offC) (row + 1) i' led
        (by rw [length_updateRow, hg7])
        (by intro r hr; rw [rowLength_updateRow]; exact hg17 r hr)
        (fun x hx => hble x (by simp [hx]))
        (by simpa using hi)
        (by simp only [List.length_cons] at hrow; omega)
        hled

theorem exists_getD_ne (l1 l2 : List Nat) (hlen : l1.length = l2.length)
    (hne : l1 ≠ l2) : ∃ j, j < l1.length ∧ l1.getD j 0 ≠ l2.getD j 0 := by
  by_contra hall
  push_neg at hall
  refine hne (List.ext_getElem hlen ?_)
  intro j h1 h2
  have := hall j h1
  rwa [List.getD_eq_getElem l1 0 h1, List.getD_eq_getElem l2 0 h2] at this

theorem getD_mem_or_default (l : List Nat) (j : Nat) :
    l.getD j 0 ∈ l ∨ l.getD j 0 = 0 := by
  by_cases h : j < l.length
  · rw [List.getD_eq_getElem l 0 h]
    exact Or.inl (List.getElem_mem h)
  · rw [List.getD_eq_default l 0 (by omega)]
    exact Or.inr rfl

/-- C7: the placement pass mutates its input: afterwards the six stored
vectors are each reversed (LSB-first), and a second pass on the same
un-refreshed state draws a different grid whenever some field's bit
pattern is not a palindrome. -/
theorem placement_mutates_stored_vectors (g : Grid) (bins : List (List Nat))
    (onC offC : Color)
    (hg7 : g.length = 7) (hg17 : ∀ r, r < 7 → (g.getD r []).length = 17)
    (hlen6 : bins.length = 6)
    (hble : ∀ b ∈ bins, b.length ≤ 17)
    (h01 : ∀ b ∈ bins, ∀ x ∈ b, x = 0 ∨ x = 1)
    (honoff : onC ≠ offC)
    (hnp : ∃ i, i < bins.length ∧ (bins.getD i []).reverse ≠ bins.getD i []) :
    (passRows g 0 onC offC bins).2 = bins.map List.reverse ∧
    (passRows (passRows g 0 onC offC bins).1 0 onC offC
      (passRows g 0 onC offC bins).2).1 ≠ (passRows g 0 onC offC bins).1 := by
  refine ⟨passRows_snd onC offC bins g 0, ?_⟩
  obtain ⟨i, hi, hne⟩ := hnp
  set v := bins.getD i [] with hv
  have hvmem : v ∈ bins := by
    rw [hv, List.getD_eq_getElem bins [] hi]
    exact List.getElem_mem hi
  have hvle : v.length ≤ 17 := hble v hvmem
  have hv01 : ∀ x ∈ v, x = 0 ∨ x = 1 := h01 v hvmem
  obtain ⟨led, hled, hd⟩ := exists_getD_ne v.reverse v (by simp) hne
  rw [List.length_reverse] at hled
  -- the grid and state after the first pass
  have hsnd : (passRows g 0 onC offC bins).2 = bins.map List.reverse :=
    passRows_snd onC offC bins g 0
  have hmapD : (bins.map List.reverse).getD i [] = v.reverse := by
    have hlm : i < (bins.map List.reverse).length := by
      rw [List.length_map]; exact hi
    rw [List.getD_eq_getElem _ [] hlm, List.getElem_map, hv,
      List.getD_eq_getElem bins [] hi]
  -- cell value after the first pass
  have hcell1 : getCell (passRows g 0 onC offC bins).1 (0 + i) (16 - led) =
      if v.reverse.getD led 0 = 1 then onC else offC := by
    rw [getCell_passRows_hit onC offC bins g 0 i led hg7 hg17 hble hi
      (by omega) (by rw [← hv]; exact hled), hv]
  -- cell value after the second pass
  have hcell2 : getCell (passRows (passRows g 0 onC offC bins).1 0 onC offC
      (passRows g 0 onC offC bins).2).1 (0 + i) (16 - led) =
      if v.getD led 0 = 1 then onC else offC := by
    rw [hsnd]
    have h := getCell_passRows_hit onC offC (bins.map List.reverse)
      (passRows g 0 onC offC bins).1 0 i led
      (by rw [length_passRows, hg7])
      (by intro r hr; rw [rowLength_passRows]; exact hg17 r hr)
      (by intro b hb
          obtain ⟨b0, hb0, rfl⟩ := List.mem_map.mp hb
          rw [List.length_reverse]; exact hble b0 hb0)
      (by rw [List.length_map]; exact hi)
      (by rw [List.length_map]; omega)
      (by rw [hmapD, List.length_reverse]; exact hled)
    rw [hmapD, List.reverse_reverse] at h
    exact h
  -- the two bits differ and are both 0/1, so the colors differ
  have hb1 : v.reverse.getD led 0 = 0 ∨ v.reverse.getD led 0 = 1 := by
    rcases getD_mem_or_default v.reverse led with hm | h0
    · exact hv01 _ (List.mem_reverse.mp hm)
    · exact Or.inl h0
  have hb2 : v.getD led 0 = 0 ∨ v.getD led 0 = 1 := by
    rcases getD_mem_or_default v led with hm | h0
    · exact hv01 _ hm
    · exact Or.inl h0
  have hcolor : (if v.reverse.getD led 0 = 1 then onC else offC) ≠
      (if v.getD led 0 = 1 then onC else offC) := by
    rcases hb1 with h1 | h1 <;> rcases hb2 with h2 | h2
    · exact absurd (h1.trans h2.symm) hd
    · rw [if_neg (show ¬ v.reverse.getD led 0 = 1 by omega), if_pos h2]
      exact fun he => honoff he.symm
    · rw [if_pos h1, if_neg (show ¬ v.getD led 0 = 1 by omega)]
      exact honoff
    · exact absurd (h1.trans h2.symm) hd
  intro heq
  rw [heq, hcell1] at hcell2
  exact hcolor hcell2

/-- The initial display field built by `reset`, before any placement. -/
def demoBins : List (List Nat) :=
  [get_year_bin 2024, get_month_bin 12, get_day_bin 25,
    get_hour_bin 13, get_minute_bin 45, get_second_bin 30]

theorem placement_mutates_stored_vectors_witness :
    (initField.length = 7 ∧ demoBins.length = 6 ∧
      ([255, 0, 0] : Color) ≠ [0, 0, 0] ∧
      (demoBins.getD 0 []).reverse ≠ demoBins.getD 0 []) ∧
    (passRows initField 0 [255, 0, 0] [0, 0, 0] demoBins).2 =
      demoBins.map List.reverse ∧
    (passRows (passRows initField 0 [255, 0, 0] [0, 0, 0] demoBins).1 0
      [255, 0, 0] [0, 0, 0]
      (passRows initField 0 [255, 0, 0] [0, 0, 0] demoBins).2).1 ≠
      (passRows initField 0 [255, 0, 0] [0, 0, 0] demoBins).1 :=
  ⟨by decide, placement_mutates_stored_vectors initField demoBins
    [255, 0, 0] [0, 0, 0] (by decide) (by decide) (by decide) (by decide)
    (by decide) (by decide) ⟨0, by decide, by decide⟩⟩

/-- The all-zero bit vectors at each field's fixed width, in row order
year, month, day, hour, minute, second. -/
def allZeroBins : List (List Nat) :=
  [List.replicate 11 0, List.replicate 4 0, List.replicate 5 0,
    List.replicate 5 0, List.replicate 6 0, List.replicate 6 0]

/-- A 7×17 prior grid with one stale lit cell at row 0, column 0. -/
def staleField : Grid := setCell initField 0 0 [9, 9, 9]

/-- C5 counterexample: the placement loop only writes the rightmost
`width` columns of each row, so with all-zero vectors a prior grid with
a lit cell at row 0, column 0 (the 11-bit year row covers only columns
6..16) keeps that cell lit: not every cell of rows 0..5 ends up
`offColor`. -/
theorem allzero_rows_not_all_off :
    getCell (passRows staleField 0 [255, 0, 0] [0, 0, 0] allZeroBins).1 0 0 =
      [9, 9, 9] ∧ ([9, 9, 9] : Color) ≠ [0, 0, 0] := by
  decide

/-- C5 amended: with all six vectors all-zero, every covered column
(column `17 − width` through 16) of rows 0..5 becomes `offColor`, the
columns left of each field's width keep their prior contents, and row 6
is untouched. -/
theorem allzero_update_covered_columns_off (g : Grid) (onC offC : Color)
    (hg7 : g.length = 7) (hg17 : ∀ r, r < 7 → (g.getD r []).length = 17) :
    (∀ i c, i < 6 → 17 - (allZeroBins.getD i []).length ≤ c → c ≤ 16 →
      getCell (passRows g 0 onC offC allZeroBins).1 i c = offC) ∧
    (∀ i c, i < 6 → c < 17 - (allZeroBins.getD i []).length →
      getCell (passRows g 0 onC offC allZeroBins).1 i c = getCell g i c) ∧
    (∀ c, getCell (passRows g 0 onC offC allZeroBins).1 6 c = getCell g 6 c) := by
  have hrep : ∀ i, i < 6 → ∃ w, w ≤ 17 ∧ allZeroBins.getD i [] = List.replicate w 0 := by
    intro i hi
    interval_cases i
    · exact ⟨11, by omega, rfl⟩
    · exact ⟨4, by omega, rfl⟩
    · exact ⟨5, by omega, rfl⟩
    · exact ⟨5, by omega, rfl⟩
    · exact ⟨6, by omega, rfl⟩
    · exact ⟨6, by omega, rfl⟩
  have hlen : allZeroBins.length = 6 := rfl
  refine ⟨?_, ?_, ?_⟩
  · intro i c hi h1 h2
    obtain ⟨w, hw17, hw⟩ := hrep i hi
    rw [hw, List.length_replicate] at h1
    have hceq : c = 16 - (16 - c) := by omega
    have h := getCell_passRows_hit onC offC allZeroBins g 0 i (16 - c)
      hg7 hg17 (by decide) (by rw [hlen]; exact hi) (by rw [hlen]; omega)
      (by rw [hw, List.length_replicate]; omega)
    rw [hw, List.reverse_replicate, Nat.zero_add] at h
    have hzero : (List.replicate w (0 : Nat)).getD (16 - c) 0 = 0 := by
      rw [List.getD_eq_getElem?_getD, List.getElem?_getD_replicate_default_eq]
    rw [hzero, if_neg (by omega)] at h
    rw [hceq]
    exact h
  · intro i c hi hc
    obtain ⟨w, hw17, hw⟩ := hrep i hi
    rw [hw, List.length_replicate] at hc
    have h := getCell_passRows_frame_col onC offC allZeroBins g 0 i c
      (by rw [hlen]; exact hi)
      (by intro led hled
          rw [hw, List.length_replicate] at hled
          omega)
    rw [Nat.zero_add] at h
    exact h
  · intro c
    have h := getCell_passRows_frame_row onC offC allZeroBins g 0 6 c
      (Or.inr (by rw [hlen]))
    exact h

theorem allzero_update_covered_columns_off_witness :
    staleField.length = 7 ∧
    getCell (passRows staleField 0 [255, 0, 0] [7, 7, 7] allZeroBins).1 1 16 =
      [7, 7, 7] ∧
    getCell (passRows staleField 0 [255, 0, 0] [7, 7, 7] allZeroBins).1 0 0 =
      getCell staleField 0 0 := by
  have h := allzero_update_covered_columns_off staleField [255, 0, 0] [7, 7, 7]
    (by decide) (by decide)
  exact ⟨by decide, h.1 1 16 (by decide) (by decide) (by decide),
    h.2.1 0 0 (by decide) (by decide)⟩

/- ### Status overlays and `draw` -/

/-- The three status indicators of `LEDController` (`BinClockLEDs.py`):
`okay` at (x=0, y=6), `paused` at (x=1, y=6), `mode` at (x=2, y=6).
Positions are fixed; only the colors change. -/
structure Status where
  okay : Color
  paused : Color
  mode : Color
deriving DecidableEq

/-- The writes of the overlay loop in `draw`
(`for s in self.status: field[status[s][1]][status[s][0]] = status[s][2]`)
in dict insertion order okay, paused, mode; each write targets
`field[y][x]`. -/
def statusWrites (st : Status) : List (Nat × Nat × Color) :=
  [(6, 0, st.okay), (6, 1, st.paused), (6, 2, st.mode)]

/-- `LEDController.draw` restricted to the grid state: apply the status
overlays to the field (the per-pixel push to the HAT is I/O outside the
model). -/
def draw (g : Grid) (st : Status) : Grid :=
  applyWrites g (statusWrites st)

/-- `LEDController.setStatus` (`BinClockLEDs.py`): three `if`s, each
replacing the matching indicator's entry (same fixed cell, new color);
an unknown name matches none of them.  The `self.draw()` it then calls
is applied separately via `draw`. -/
def setStatus (st : Status) (name : String) (color : Color) : Status :=
  let st1 := if name = "okay" then { st with okay := color } else st
  let st2 := if name = "paused" then { st1 with paused := color } else st1
  if name = "mode" then { st2 with mode := color } else st2

/-- `LEDController.set_status` (`BinClockLEDs_improved.py`): update the
color and redraw only when the name is a known key (`if status in
self.status`); otherwise do nothing at all. -/
def set_status_improved (g : Grid) (st : Status) (name : String)
    (color : Color) : Grid × Status :=
  if name = "okay" ∨ name = "paused" ∨ name = "mode" then
    (draw g (setStatus st name color), setStatus st name color)
  else (g, st)

/-- The fixed column of each known status name (x coordinate stored in
`self.status`). -/
def statusCol (name : String) : Nat :=
  if name = "okay" then 0 else if name = "paused" then 1 else 2

/-- The color a status cell of row 6 shows: column 0 `okay`, column 1
`paused`, column 2 `mode`. -/
def statusColor (st : Status) (k : Nat) : Color :=
  if k = 0 then st.okay else if k = 1 then st.paused else st.mode

theorem getCell_draw_frame (g : Grid) (st : Status) (r c : Nat)
    (h : r ≠ 6 ∨ 3 ≤ c) : getCell (draw g st) r c = getCell g r c := by
  unfold draw
  rw [getCell_applyWrites]
  by_cases hB : r < g.length ∧ c < (g.getD r []).length
  · rw [if_pos hB]
    have h0 : ¬(6 = r ∧ 0 = c) := by omega
    have h1 : ¬(6 = r ∧ 1 = c) := by omega
    have h2 : ¬(6 = r ∧ 2 = c) := by omega
    have : lastVal (statusWrites st) r c = none := by
      simp only [statusWrites, lastVal, if_neg h0, if_neg h1, if_neg h2]
    rw [this]
    rfl
  · rw [if_neg hB]

theorem getCell_draw_status (g : Grid) (st : Status) (k : Nat) (hk : k < 3)
    (h6 : 6 < g.length) (hkl : k < (g.getD 6 []).length) :
    getCell (draw g st) 6 k = statusColor st k := by
  unfold draw
  rw [getCell_applyWrites, if_pos ⟨h6, hkl⟩]
  interval_cases k
  · have : lastVal (statusWrites st) 6 0 = some st.okay := rfl
    rw [this]
    rfl
  · have : lastVal (statusWrites st) 6 1 = some st.paused := rfl
    rw [this]
    rfl
  · have : lastVal (statusWrites st) 6 2 = some st.mode := rfl
    rw [this]
    rfl

/-- C8: the compose/draw step is idempotent: with no intervening change
to the grid contents or the status set, the second `draw` changes no
cell of the grid. -/
theorem draw_idempotent (g : Grid) (st : Status) :
    draw (draw g st) st = draw g st :=
  applyWrites_idem g (statusWrites st)

/-- C9: for a known status name, `setStatus` followed by the redraw sets
that name's fixed cell (row 6, its fixed column) to the new color and
changes no other cell, provided the other two status cells already show
their current colors (which holds after any `draw`). -/
theorem setStatus_changes_one_cell (g : Grid) (st : Status) (name : String)
    (color : Color)
    (hknown : name = "okay" ∨ name = "paused" ∨ name = "mode")
    (hg7 : g.length = 7) (hg17 : ∀ r, r < 7 → (g.getD r []).length = 17)
    (hcons : ∀ k, k < 3 → k ≠ statusCol name → getCell g 6 k = statusColor st k) :
    getCell (draw g (setStatus st name color)) 6 (statusCol name) = color ∧
    (∀ r c, ¬(r = 6 ∧ c = statusCol name) →
      getCell (draw g (setStatus st name color)) r c = getCell g r c) := by
  have hcol3 : statusCol name < 3 := by
    rcases hknown with h | h | h <;> simp [statusCol, h]
  constructor
  · rw [getCell_draw_status g _ (statusCol name) hcol3 (by omega)
      (by rw [hg17 6 (by omega)]; omega)]
    rcases hknown with h | h | h <;> subst h <;>
      simp [setStatus, statusCol, statusColor]
  · intro r c hne
    by_cases hr6 : r = 6
    · subst hr6
      by_cases hc3 : c < 3
      · have hcne : c ≠ statusCol name := fun h => hne ⟨rfl, h⟩
        rw [getCell_draw_status g _ c hc3 (by omega)
          (by rw [hg17 6 (by omega)]; omega), hcons c hc3 hcne]
        rcases hknown with h | h | h <;> subst h <;>
          revert hcne <;> simp only [statusCol] <;> intro hcne <;>
          interval_cases c <;> simp_all [setStatus, statusColor]
      · rw [getCell_draw_frame g _ 6 c (Or.inr (by omega))]
    · rw [getCell_draw_frame g _ r c (Or.inl hr6)]

theorem setStatus_changes_one_cell_witness :
    getCell (draw initField
      (setStatus ⟨[0, 0, 0], [0, 0, 0], [0, 0, 0]⟩ "paused" [255, 0, 0])) 6 1 =
      [255, 0, 0] ∧
    getCell (draw initField
      (setStatus ⟨[0, 0, 0], [0, 0, 0], [0, 0, 0]⟩ "paused" [255, 0, 0])) 0 0 =
      getCell initField 0 0 := by
  have h := setStatus_changes_one_cell initField
    ⟨[0, 0, 0], [0, 0, 0], [0, 0, 0]⟩ "paused" [255, 0, 0]
    (Or.inr (Or.inl rfl)) (by decide) (by decide)
    (by intro k hk _; interval_cases k <;> rfl)
  exact ⟨h.1, h.2 0 0 (fun hx => absurd hx.1 (by omega))⟩

/-- C10: for a name outside the recognized set, `setStatus` changes no
indicator (none of its `if`s match), the unconditional redraw it then
performs leaves a status-consistent grid unchanged, and the improved
variant's `set_status` returns grid and status untouched (and none of
them raises an error: all are total). -/
theorem setStatus_unknown_ignored (g : Grid) (st : Status) (name : String)
    (color : Color)
    (hunk : name ≠ "okay" ∧ name ≠ "paused" ∧ name ≠ "mode")
    (hg7 : g.length = 7) (hg17 : ∀ r, r < 7 → (g.getD r []).length = 17)
    (hcons : ∀ k, k < 3 → getCell g 6 k = statusColor st k) :
    setStatus st name color = st ∧
    draw g (setStatus st name color) = g ∧
    set_status_improved g st name color = (g, st) := by
  have hset : setStatus st name color = st := by
    simp [setStatus, hunk.1, hunk.2.1, hunk.2.2]
  refine ⟨hset, ?_, ?_⟩
  · rw [hset]
    apply grid_ext
    · exact length_applyWrites _ g
    · intro r
      exact rowLength_applyWrites _ g r
    · intro r c
      by_cases hr : r = 6 ∧ c < 3
      · obtain ⟨rfl, hc⟩ := hr
        rw [getCell_draw_status g st c hc (by omega)
          (by rw [hg17 6 (by omega)]; omega), hcons c hc]
      · rw [getCell_draw_frame g st r c (by omega)]
  · simp [set_status_improved, hunk.1, hunk.2.1, hunk.2.2]

theorem setStatus_unknown_ignored_witness :
    setStatus ⟨[0, 0, 0], [0, 0, 0], [0, 0, 0]⟩ "bogus" [255, 0, 0] =
      ⟨[0, 0, 0], [0, 0, 0], [0, 0, 0]⟩ ∧
    draw initField
      (setStatus ⟨[0, 0, 0], [0, 0, 0], [0, 0, 0]⟩ "bogus" [255, 0, 0]) =
      initField ∧
    set_status_improved initField ⟨[0, 0, 0], [0, 0, 0], [0, 0, 0]⟩ "bogus"
      [255, 0, 0] = (initField, ⟨[0, 0, 0], [0, 0, 0], [0, 0, 0]⟩) := by
  have h := setStatus_unknown_ignored initField
    ⟨[0, 0, 0], [0, 0, 0], [0, 0, 0]⟩ "bogus" [255, 0, 0]
    ⟨by decide, by decide, by decide⟩ (by decide) (by decide)
    (by intro k hk; interval_cases k <;> rfl)
  exact ⟨h.1, h.2.1, h.2.2⟩

/- ### Change detection in `BinClockLEDs_improved.update_binary_display` -/

/-- One refresh cycle of `LEDController.update_binary_display`: for each
field in row order, compare the fresh vector against the copy stored at
the previous refresh (`self.last_time_update.get(name)`, `none` when
absent); when equal, skip the row entirely; when different, store an
MSB-first copy (taken before the in-place reversal), reverse, and place
the row.  Its bounds guard `0 <= x < self.width` always passes for the
vector lengths the encoder can produce (at most 14 bits).  Returns the
grid and the new stored copies, positionally aligned with the six field
names. -/
def improvedCycle (onC offC : Color) :
    Grid → Nat → List (List Nat) → List (Option (List Nat)) →
      Grid × List (Option (List Nat))
  | g, _, [], _ => (g, [])
  | g, row, b :: bs, last =>
    if last.headD none = some b then
      let p := improvedCycle onC offC g (row + 1) bs last.tail
      (p.1, some b :: p.2)
    else
      let p := improvedCycle onC offC (updateRow g row b onC offC) (row + 1)
        bs last.tail
      (p.1, some b :: p.2)

/-- The unconditional per-row update of `BinClockLEDs.py` run over a
sequence of refresh cycles; each cycle re-encodes, so each receives
fresh MSB-first vectors. -/
def simpleRun (onC offC : Color) : Grid → List (List (List Nat)) → Grid
  | g, [] => g
  | g, bins :: rest => simpleRun onC offC (passRows g 0 onC offC bins).1 rest

/-- `update_binary_display` run over the same sequence of refresh
cycles, carrying `last_time_update` (initially the empty dict) across
refreshes. -/
def improvedRun (onC offC : Color) :
    Grid → List (Option (List Nat)) → List (List (List Nat)) →
      Grid × List (Option (List Nat))
  | g, last, [] => (g, last)
  | g, last, bins :: rest =>
    improvedRun onC offC (improvedCycle onC offC g 0 bins last).1
      (improvedCycle onC offC g 0 bins last).2 rest

theorem headD_eq_getD_zero (l : List (Option (List Nat))) :
    l.headD none = l.getD 0 none := by
  cases l <;> rfl

theorem tail_getD_opt (l : List (Option (List Nat))) (i : Nat) :
    l.tail.getD i none = l.getD (i + 1) none := by
  cases l <;> rfl

theorem updateRow_fix_of_other (g : Grid) (onC offC : Color) (r r' : Nat)
    (v b : List Nat) (h : updateRow g r v onC offC = g) (hne : r ≠ r') :
    updateRow (updateRow g r' b onC offC) r v onC offC =
      updateRow g r' b onC offC := by
  apply grid_ext
  · simp only [length_updateRow]
  · intro x
    simp only [rowLength_updateRow]
  · intro x y
    by_cases hx : x = r
    · subst hx
      have hframe : getCell (updateRow g r' b onC offC) x y = getCell g x y :=
        getCell_updateRow_frame g r' b onC offC x y (Or.inl hne)
      have hself : getCell (updateRow g x v onC offC) x y = getCell g x y := by
        rw [h]
      unfold updateRow at hself hframe ⊢
      rw [getCell_applyWrites] at hself
      rw [getCell_applyWrites, length_applyWrites, rowLength_applyWrites, hframe]
      by_cases hB : x < g.length ∧ y < (g.getD x []).length
      · rw [if_pos hB] at hself ⊢
        exact hself
      · rw [if_neg hB]
    · exact getCell_updateRow_frame _ r v onC offC x y (Or.inl hx)

theorem passRows_preserves_fix (onC offC : Color) :
    ∀ (bins : List (List Nat)) (g : Grid) (row r : Nat) (v : List Nat),
      (∀ i, i < bins.length → r ≠ row + i) →
      updateRow g r v onC offC = g →
      updateRow (passRows g row onC offC bins).1 r v onC offC =
        (passRows g row onC offC bins).1 := by
  intro bins
  induction bins with
  | nil => intro g row r v _ hfix; exact hfix
  | cons b bs ih =>
    intro g row r v hne hfix
    show updateRow (passRows (updateRow g row b onC offC) (row + 1) onC offC bs).1
      r v onC offC = _
    exact ih (updateRow g row b onC offC) (row + 1) r v
      (fun i hi => by have := hne (i + 1) (by simpa using hi); omega)
      (updateRow_fix_of_other g onC offC r row v b hfix
        (by have := hne 0 (by simp); omega))

theorem passRows_fixpoint (onC offC : Color) :
    ∀ (bins : List (List Nat)) (g : Grid) (row i : Nat) (v : List Nat),
      (bins.map some).getD i none = some v →
      updateRow (passRows g row onC offC bins).1 (row + i) v onC offC =
        (passRows g row onC offC bins).1 := by
  intro bins
  induction bins with
  | nil => intro g row i v h; simp at h
  | cons b bs ih =>
    intro g row i v h
    show updateRow (passRows (updateRow g row b onC offC) (row + 1) onC offC bs).1
      (row + i) v onC offC = _
    match i with
    | 0 =>
      simp only [List.map_cons, List.getD_cons_zero, Option.some.injEq] at h
      subst h
      have : row + 0 = row := by omega
      rw [this]
      exact passRows_preserves_fix onC offC bs (updateRow g row b onC offC)
        (row + 1) row b (fun i hi => by omega)
        (applyWrites_idem g (rowWrites row b onC offC))
    | i' + 1 =>
      simp only [List.map_cons, List.getD_cons_succ] at h
      have hadd : row + (i' + 1) = (row + 1) + i' := by omega
      rw [hadd]
      exact ih (updateRow g row b onC offC) (row + 1) i' v h

theorem improvedCycle_eq_passRows (onC offC : Color) :
    ∀ (bins : List (List Nat)) (g : Grid) (last : List (Option (List Nat)))
      (row : Nat),
      (∀ i v, last.getD i none = some v → updateRow g (row + i) v onC offC = g) →
      (improvedCycle onC offC g row bins last).1 = (passRows g row onC offC bins).1 ∧
      (improvedCycle onC offC g row bins last).2 = bins.map some := by
  intro bins
  induction bins with
  | nil => intro g last row _; exact ⟨rfl, rfl⟩
  | cons b bs ih =>
    intro g last row hJ
    by_cases hskip : last.headD none = some b
    · have hfix : updateRow g row b onC offC = g := by
        have h0 := hJ 0 b (by rw [← headD_eq_getD_zero]; exact hskip)
        have : row + 0 = row := by omega
        rwa [this] at h0
      have hrec := ih g last.tail (row + 1)
        (by intro i v hv
            have := hJ (i + 1) v (by rwa [← tail_getD_opt])
            have hadd : row + (i + 1) = row + 1 + i := by omega
            rwa [hadd] at this)
      constructor
      · show (improvedCycle onC offC g row (b :: bs) last).1 = _
        rw [improvedCycle, if_pos hskip]
        show (improvedCycle onC offC g (row + 1) bs last.tail).1 = _
        rw [hrec.1]
        show _ = (passRows (updateRow g row b onC offC) (row + 1) onC offC bs).1
        rw [hfix]
      · show (improvedCycle onC offC g row (b :: bs) last).2 = _
        rw [improvedCycle, if_pos hskip]
        show some b :: (improvedCycle onC offC g (row + 1) bs last.tail).2 = _
        rw [hrec.2, List.map_cons]
    · have hrec := ih (updateRow g row b onC offC) last.tail (row + 1)
        (by intro i v hv
            have hfixi := hJ (i + 1) v (by rwa [← tail_getD_opt])
            have hadd : row + (i + 1) = row + 1 + i := by omega
            rw [hadd] at hfixi
            exact updateRow_fix_of_other g onC offC (row + 1 + i) row v b hfixi
              (by omega))
      constructor
      · show (improvedCycle onC offC g row (b :: bs) last).1 = _
        rw [improvedCycle, if_neg hskip]
        exact hrec.1
      · show (improvedCycle onC offC g row (b :: bs) last).2 = _
        rw [improvedCycle, if_neg hskip]
        show some b :: (improvedCycle onC offC (updateRow g row b onC offC)
          (row + 1) bs last.tail).2 = _
        rw [hrec.2, List.map_cons]

theorem improvedRun_eq_simpleRun (onC offC : Color) :
    ∀ (cycles : List (List (List Nat))) (g : Grid)
      (last : List (Option (List Nat))),
      (∀ i v, last.getD i none = some v → updateRow g (0 + i) v onC offC = g) →
      (improvedRun onC offC g last cycles).1 = simpleRun onC offC g cycles := by
  intro cycles
  induction cycles with
  | nil => intro g last _; rfl
  | cons bins rest ih =>
    intro g last hJ
    have hc := improvedCycle_eq_passRows onC offC bins g last 0 hJ
    show (improvedRun onC offC (improvedCycle onC offC g 0 bins last).1
      (improvedCycle onC offC g 0 bins last).2 rest).1 = _
    rw [hc.1, hc.2]
    exact ih (passRows g 0 onC offC bins).1 (bins.map some)
      (fun i v hv => passRows_fixpoint onC offC bins g 0 i v hv)

/-- C4: feeding any sequence of encoded timestamps through refresh
cycles, the change-detecting `update_binary_display` (starting with an
empty `last_time_update`) produces exactly the same final grid as the
unconditional per-row update of `BinClockLEDs.py`. -/
theorem change_detection_equivalent (g : Grid) (onC offC : Color)
    (cycles : List (List (List Nat))) :
    (improvedRun onC offC g [] cycles).1 = simpleRun onC offC g cycles :=
  improvedRun_eq_simpleRun onC offC cycles g []
    (by intro i v hv; simp at hv)
